import Mathlib

set_option linter.unusedVariables false

/-!
# Verification of milk.supervised.multi

A shallow embedding of `milk/supervised/multi.py`: multi-class and
multi-label classification strategies built by composing a binary base
classifier (`one_against_rest`, `one_against_one`,
`one_against_rest_multi`), together with proofs of the specified
properties.

Modelling conventions:
* A feature array is a `List φ` of per-instance feature values; a trained
  binary sub-model is a function `φ → Bool` (Python truthiness of
  `submodel.apply`).
* A base binary classifier is a training function
  `List φ → List Nat → (φ → Bool)` (features, 0/1 indicator ↦ sub-model);
  option propagation (`set_option`) only mutates the base classifier's
  configuration before each call and is absorbed into this function, which
  is fixed across the training loop.
* Labels of the single-label strategies are natural numbers; fallible
  Python list indexing is `Option`; the `assert` in `one_against_one.train`
  is an `Except String` error.
-/

/-- `foldl Nat.max 0`, the embedding of numpy `.max()` over a vector of
naturals (with value 0 on the empty list, where numpy would raise). -/
def maxL (xs : List Nat) : Nat := xs.foldl Nat.max 0

/-- Modelled from the spec: the label-normalization collaborator
`normaliselabels` lives in `milk/supervised/classifier.py`, which is not
part of this repository snapshot.  Per the spec it maps arbitrary label
values to a dense zero-based integer range `0..k-1` and returns a name
table with `names[i]` the original value mapped to integer `i`.  We model
it deterministically by the sorted list of distinct label values. -/
def normaliselabels (labels : List Nat) : List Nat × List Nat :=
  let names := List.insertionSort (· ≤ ·) labels.dedup
  (labels.map (fun l => names.indexOf l), names)

/-- The dense integer labels produced by normalization. -/
def nlabelsOf (labels : List Nat) : List Nat := (normaliselabels labels).1

/-- The name table produced by normalization. -/
def namesOf (labels : List Nat) : List Nat := (normaliselabels labels).2

/-- `labels.max() + 1`, the class count both learners derive from the
normalized labels. -/
def nclassesOf (labels : List Nat) : Nat := maxL (nlabelsOf labels) + 1

/-! ## one_against_rest -/

/-- The trained model returned by `one_against_rest.train`: the list of
per-class sub-models (index order) and the name table. -/
structure one_against_rest_model (φ : Type) where
  models : List (φ → Bool)
  names : List Nat

/-- `self.nclasses = len(self.models)`. -/
def one_against_rest_model.nclasses {φ : Type} (m : one_against_rest_model φ) : Nat :=
  m.models.length

/-- `one_against_rest.train(features, labels, normalisedlabels=False)`:
normalize the labels (the `normalisedlabels` argument is accepted but not
used by the body), then for each class `i < nclasses` train the base
classifier against the 0/1 indicator `labels == i`. -/
def one_against_rest_train {φ : Type} (base : List φ → List Nat → (φ → Bool))
    (features : List φ) (labels : List Nat) (normalisedlabels : Bool) :
    one_against_rest_model φ :=
  let nlabels := (normaliselabels labels).1
  let names := (normaliselabels labels).2
  let nclasses := maxL nlabels + 1
  { models := (List.range nclasses).map (fun i =>
      base features (nlabels.map (fun l => if l == i then 1 else 0)))
    names := names }

/-- The ascending list of indices of firing sub-models:
`np.where(vals)` for `vals = [c.apply(feats) for c in self.models]`. -/
def one_against_rest_model.firingIdxs {φ : Type} (m : one_against_rest_model φ)
    (feats : φ) : List Nat :=
  let vals := m.models.map (fun c => c feats)
  (List.range vals.length).filter (fun i => vals.getD i false)

/-- `one_against_rest_model.apply`: if exactly one sub-model fires return
its name; if none fires return `names[0]`; otherwise return the name of
the lowest firing index.  `names[label]` is Python list indexing, hence
`Option`-valued. -/
def one_against_rest_model.applyF {φ : Type} (m : one_against_rest_model φ)
    (feats : φ) : Option Nat :=
  let idxs := m.firingIdxs feats
  let label : Nat :=
    if idxs.length = 1 then idxs.getD 0 0
    else if idxs.length = 0 then 0
    else idxs.getD 0 0
  m.names.get? label

/-! ## one_against_one -/

/-- The trained model returned by `one_against_one.train`: the
`nclasses × nclasses` table of sub-models (entries with row `<` column
populated, the rest `None`) and the name table. -/
structure one_against_one_model (φ : Type) where
  models : List (List (Option (φ → Bool)))
  names : List Nat

/-- `self.nclasses = len(models)`. -/
def one_against_one_model.nclasses {φ : Type} (m : one_against_one_model φ) : Nat :=
  m.models.length

/-- `features[idxs]` for the boolean mask `(labels==i)|(labels==j)`:
the features of the instances whose label is `i` or `j`. -/
def pairFeatures {φ : Type} (features : List φ) (nlabels : List Nat)
    (i j : Nat) : List φ :=
  ((features.zip nlabels).filter (fun q => q.2 == i || q.2 == j)).map Prod.fst

/-- `(labels[idxs]==i).astype(int)`: the 0/1 indicator, over the instances
whose label is `i` or `j`, of having label `i`. -/
def pairIndicator (nlabels : List Nat) (i j : Nat) : List Nat :=
  (nlabels.filter (fun l => l == i || l == j)).map (fun l => if l == i then 1 else 0)

/-- The message of the `assert` in `one_against_one.train`. -/
def emptyPairMsg : String :=
  "milk.multi.one_against_one: Pair-wise classifier has no data"

/-- The body of the inner training loop of `one_against_one.train` for the
pair `(i,j)`: `None` when not `i < j`; otherwise assert that some instance
has label `i` or `j` (raising `AssertionError` if not) and train the base
classifier on the pair subset. -/
def one_against_one_cell {φ : Type} (base : List φ → List Nat → (φ → Bool))
    (features : List φ) (nlabels : List Nat) (i j : Nat) :
    Except String (Option (φ → Bool)) :=
  if i < j then
    if (nlabels.filter (fun l => l == i || l == j)).length = 0 then
      Except.error emptyPairMsg
    else
      Except.ok (some (base (pairFeatures features nlabels i j) (pairIndicator nlabels i j)))
  else Except.ok none

/-- `one_against_one.train(features, labels)`: normalize the labels, then
for every `i < j < nclasses` (ascending, failing at the first empty pair)
train a sub-model on the instances labelled `i` or `j` against the
indicator `label == i`, stored at table position `(i,j)`. -/
def one_against_one_train {φ : Type} (base : List φ → List Nat → (φ → Bool))
    (features : List φ) (labels : List Nat) :
    Except String (one_against_one_model φ) := do
  let nlabels := (normaliselabels labels).1
  let names := (normaliselabels labels).2
  let nclasses := maxL nlabels + 1
  let rows ← (List.range nclasses).mapM (fun i =>
    (List.range nclasses).mapM (fun j =>
      one_against_one_cell base features nlabels i j))
  pure { models := rows, names := names }

/-- The list of unordered pairs `(i,j)` with `i < j < n`, in the order the
double loop of `one_against_one_model.apply` visits them. -/
def uPairs (n : Nat) : List (Nat × Nat) :=
  ((List.range n).map (fun i => ((List.range n).drop (i+1)).map (fun j => (i, j)))).flatten

/-- The sub-model at table position `(i,j)`, as a total function (claims
only use it where the table is populated). -/
def one_against_one_model.sub {φ : Type} (m : one_against_one_model φ)
    (i j : Nat) : φ → Bool :=
  ((m.models.getD i []).getD j none).getD (fun _ => false)

/-- `votes[k] += 1`. -/
def bump (v : List Nat) (k : Nat) : List Nat := v.set k (v.getD k 0 + 1)

/-- The index the pair `(i,j)` votes for on input `feats`: `i` if the
`(i,j)` sub-model fires, else `j`. -/
def one_against_one_model.votedIdx {φ : Type} (m : one_against_one_model φ)
    (feats : φ) (p : Nat × Nat) : Nat :=
  if m.sub p.1 p.2 feats then p.1 else p.2

/-- The vote tally of `one_against_one_model.apply`: a vector of length
`nclasses`, one vote added per pair `i < j`. -/
def one_against_one_model.votes {φ : Type} (m : one_against_one_model φ)
    (feats : φ) : List Nat :=
  (uPairs m.nclasses).foldl (fun v p => bump v (m.votedIdx feats p))
    (List.replicate m.nclasses 0)

/-- `np.argmax`: the index of the first occurrence of the maximum value
(0 on the empty list, where numpy would raise). -/
def npArgmax (v : List Nat) : Nat := v.indexOf (maxL v)

/-- `one_against_one_model.apply`: tally the pairwise votes and return
`names[votes.argmax(0)]`. -/
def one_against_one_model.applyF {φ : Type} (m : one_against_one_model φ)
    (feats : φ) : Option Nat :=
  m.names.get? (npArgmax (m.votes feats))

/-- The method `one_against_one_model.apply` as a state transformer on the
model object: the body reads `self.nclasses`, `self.models` and
`self.names` and assigns no attribute, so the post-state is the receiver
unchanged. -/
def one_against_one_model.applyState {φ : Type} (m : one_against_one_model φ)
    (feats : φ) : Option Nat × one_against_one_model φ :=
  (m.applyF feats, m)

/-! ## one_against_rest_multi -/

/-- The trained model returned by `one_against_rest_multi.train`: the
label → sub-model dictionary, as an association list in key order. -/
structure one_against_rest_multi_model (φ : Type) where
  models : List (Nat × (φ → Bool))

/-- `one_against_rest_multi_model.apply`: the labels whose sub-model
fires, in dictionary order. -/
def one_against_rest_multi_model.applyF {φ : Type}
    (m : one_against_rest_multi_model φ) (feats : φ) : List Nat :=
  (m.models.filter (fun p => p.2 feats)).map Prod.fst

/-- `one_against_rest_multi.train(features, labels)`: `labels` is one
label-set per instance; build the union of all label-sets and train one
sub-model per label in the union against the indicator `label in ls`.
The Python `set` is modelled as the deduplicated concatenation (the spec
leaves set-iteration order unspecified).  The base classifier here
receives the boolean indicator list directly. -/
def one_against_rest_multi_train {φ : Type}
    (base : List φ → List Bool → (φ → Bool))
    (features : List φ) (labels : List (List Nat)) (normalisedlabels : Bool) :
    one_against_rest_multi_model φ :=
  let all_labels := labels.flatten.dedup
  { models := all_labels.map (fun lab =>
      (lab, base features (labels.map (fun ls => ls.contains lab)))) }

/-! ## Generic list lemmas -/

theorem le_foldl_max (xs : List Nat) : ∀ a : Nat, a ≤ xs.foldl Nat.max a := by
  induction xs with
  | nil => intro a; exact Nat.le_refl a
  | cons x xs ih =>
    intro a
    exact Nat.le_trans (Nat.le_max_left a x) (ih (Nat.max a x))

theorem mem_le_foldl_max (xs : List Nat) : ∀ (a x : Nat), x ∈ xs → x ≤ xs.foldl Nat.max a := by
  induction xs with
  | nil => intro a x hx; cases hx
  | cons y ys ih =>
    intro a x hx
    rcases List.mem_cons.1 hx with h | h
    · subst h
      exact Nat.le_trans (Nat.le_max_right a x) (le_foldl_max ys (Nat.max a x))
    · exact ih (Nat.max a y) x h

theorem foldl_max_mem_or (xs : List Nat) : ∀ a : Nat,
    xs.foldl Nat.max a ∈ xs ∨ xs.foldl Nat.max a = a := by
  induction xs with
  | nil => intro a; exact Or.inr rfl
  | cons x xs ih =>
    intro a
    rcases ih (Nat.max a x) with h | h
    · exact Or.inl (List.mem_cons_of_mem x h)
    · rcases Nat.le_total a x with hax | hxa
      · refine Or.inl ?_
        rw [List.foldl_cons, h, show Nat.max a x = x from Nat.max_eq_right hax]
        exact List.mem_cons_self x xs
      · exact Or.inr (by
          rw [List.foldl_cons, h]
          exact Nat.max_eq_left hxa)

theorem maxL_mem {v : List Nat} (h : v ≠ []) : maxL v ∈ v := by
  rcases foldl_max_mem_or v 0 with hm | hm
  · exact hm
  · cases v with
    | nil => exact absurd rfl h
    | cons x xs =>
      have hx : x ≤ maxL (x :: xs) := mem_le_foldl_max _ 0 x (List.mem_cons_self x xs)
      have hm0 : maxL (x :: xs) = 0 := hm
      have hx0 : x = 0 := Nat.le_antisymm (hm0 ▸ hx) (Nat.zero_le x)
      rw [maxL, hm, ← hx0]
      exact List.mem_cons_self x xs

theorem le_maxL {v : List Nat} {x : Nat} (h : x ∈ v) : x ≤ maxL v :=
  mem_le_foldl_max v 0 x h

/-! getD-level facts about `bump` and vote folding. -/

theorem bump_length (v : List Nat) (k : Nat) : (bump v k).length = v.length :=
  List.length_set v k _

theorem getD_bump_self {v : List Nat} {k : Nat} (h : k < v.length) :
    (bump v k).getD k 0 = v.getD k 0 + 1 := by
  unfold bump
  rw [List.getD_eq_getElem?_getD, List.getElem?_set_self h]
  rfl

theorem getD_bump_ne (v : List Nat) {k k' : Nat} (h : k ≠ k') :
    (bump v k).getD k' 0 = v.getD k' 0 := by
  unfold bump
  rw [List.getD_eq_getElem?_getD, List.getElem?_set_ne h, ← List.getD_eq_getElem?_getD]

theorem bump_sum (v : List Nat) : ∀ k : Nat, k < v.length →
    (bump v k).sum = v.sum + 1 := by
  induction v with
  | nil => intro k h; cases h
  | cons x xs ih =>
    intro k h
    cases k with
    | zero =>
      simp only [bump, List.getD_cons_zero, List.set_cons_zero, List.sum_cons]
      omega
    | succ k =>
      have hk : k < xs.length := by simpa using h
      have := ih k hk
      simp only [bump, List.getD_cons_succ, List.set_cons_succ, List.sum_cons] at *
      omega

theorem foldl_bump_length (f : α → Nat) (ps : List α) : ∀ v : List Nat,
    (ps.foldl (fun w p => bump w (f p)) v).length = v.length := by
  induction ps with
  | nil => intro v; rfl
  | cons p ps ih =>
    intro v
    simpa [List.foldl_cons, bump_length] using ih (bump v (f p))

theorem foldl_bump_getD (f : α → Nat) (ps : List α) : ∀ (v : List Nat) (k : Nat),
    (∀ p ∈ ps, f p < v.length) →
    (ps.foldl (fun w p => bump w (f p)) v).getD k 0
      = v.getD k 0 + (ps.countP (fun p => f p == k)) := by
  induction ps with
  | nil => intro v k _; simp
  | cons p ps ih =>
    intro v k hlt
    have hp : f p < v.length := hlt p (List.mem_cons_self p ps)
    have hrec := ih (bump v (f p)) k (by
      intro q hq
      rw [bump_length]
      exact hlt q (List.mem_cons_of_mem p hq))
    simp only [List.foldl_cons] at *
    rw [hrec, List.countP_cons]
    by_cases hk : f p = k
    · subst hk
      rw [getD_bump_self hp]
      simp
      omega
    · rw [getD_bump_ne v hk]
      simp [hk]

theorem foldl_bump_sum (f : α → Nat) (ps : List α) : ∀ v : List Nat,
    (∀ p ∈ ps, f p < v.length) →
    (ps.foldl (fun w p => bump w (f p)) v).sum = v.sum + ps.length := by
  induction ps with
  | nil => intro v _; rfl
  | cons p ps ih =>
    intro v hlt
    have hp : f p < v.length := hlt p (List.mem_cons_self p ps)
    have hrec := ih (bump v (f p)) (by
      intro q hq
      rw [bump_length]
      exact hlt q (List.mem_cons_of_mem p hq))
    simp only [List.foldl_cons] at *
    rw [hrec, bump_sum v (f p) hp, List.length_cons]
    omega

/-! Structure of the pair list `uPairs`. -/

theorem flatten_map_append_perm {α β : Type} (f g : α → List β) (l : List α) :
    ((l.map (fun x => f x ++ g x)).flatten).Perm
      ((l.map f).flatten ++ (l.map g).flatten) := by
  induction l with
  | nil => simp
  | cons a l ih =>
    simp only [List.map_cons, List.flatten_cons]
    have h1 : ((f a ++ g a) ++ ((l.map (fun x => f x ++ g x)).flatten)).Perm
        ((f a ++ g a) ++ ((l.map f).flatten ++ (l.map g).flatten)) :=
      ih.append_left _
    have h2 : ((g a ++ (l.map f).flatten) ++ (l.map g).flatten).Perm
        (((l.map f).flatten ++ g a) ++ (l.map g).flatten) :=
      List.perm_append_comm.append_right _
    have h3 : ((f a ++ g a) ++ ((l.map f).flatten ++ (l.map g).flatten)).Perm
        ((f a ++ (l.map f).flatten) ++ (g a ++ (l.map g).flatten)) := by
      have h4 := h2.append_left (f a)
      simpa [List.append_assoc] using h4
    exact h1.trans h3

theorem flatten_map_singleton {α β : Type} (f : α → β) (l : List α) :
    (l.map (fun x => [f x])).flatten = l.map f := by
  induction l with
  | nil => rfl
  | cons a l ih => simp only [List.map_cons, List.flatten_cons, ih, List.singleton_append]

theorem uPairs_succ_perm (n : Nat) :
    (uPairs (n+1)).Perm (uPairs n ++ (List.range n).map (fun i => (i, n))) := by
  unfold uPairs
  rw [List.range_succ, List.map_append]
  have hlast : ((List.range n ++ [n]).drop (n+1)).map (fun j => (n, j)) = [] := by
    have hlen : (List.range n ++ [n]).length = n + 1 := by simp
    rw [← hlen, List.drop_length]
    rfl
  have hrow : ∀ i ∈ List.range n,
      ((List.range n ++ [n]).drop (i+1)).map (fun j => (i, j))
        = ((List.range n).drop (i+1)).map (fun j => (i, j)) ++ [(i, n)] := by
    intro i hi
    have hin : i < n := List.mem_range.1 hi
    rw [List.drop_append_eq_append_drop]
    have h0 : i + 1 - (List.range n).length = 0 := by simp; omega
    rw [h0, List.drop_zero, List.map_append]
    rfl
  rw [List.map_congr_left hrow]
  simp only [List.map_cons, List.map_nil]
  rw [hlast, List.flatten_append]
  have hperm := flatten_map_append_perm
    (fun i => ((List.range n).drop (i+1)).map (fun j => (i, j)))
    (fun i => [(i, n)]) (List.range n)
  rw [flatten_map_singleton] at hperm
  simpa using hperm

theorem uPairs_zero : uPairs 0 = [] := rfl

theorem mem_uPairs (p : Nat × Nat) : ∀ n : Nat, p ∈ uPairs n ↔ p.1 < p.2 ∧ p.2 < n := by
  intro n
  induction n with
  | zero =>
    rw [uPairs_zero]
    simp only [List.not_mem_nil, false_iff]
    omega
  | succ n ih =>
    rw [(uPairs_succ_perm n).mem_iff, List.mem_append, ih]
    constructor
    · rintro (⟨h1, h2⟩ | hm)
      · exact ⟨h1, Nat.lt_succ_of_lt h2⟩
      · rcases List.mem_map.1 hm with ⟨i, hi, hp⟩
        have hin : i < n := List.mem_range.1 hi
        constructor
        · rw [← hp]; exact hin
        · rw [← hp]; exact Nat.lt_succ_self n
    · rintro ⟨h1, h2⟩
      rcases Nat.lt_succ_iff_lt_or_eq.1 h2 with h2' | h2'
      · exact Or.inl ⟨h1, h2'⟩
      · subst h2'
        exact Or.inr (List.mem_map.2 ⟨p.1, List.mem_range.2 h1, rfl⟩)

theorem uPairs_length_succ (n : Nat) :
    (uPairs (n+1)).length = (uPairs n).length + n := by
  rw [(uPairs_succ_perm n).length_eq]
  simp

theorem uPairs_length_mul_two (n : Nat) : (uPairs n).length * 2 = n * (n - 1) := by
  induction n with
  | zero => rfl
  | succ n ih =>
    rw [uPairs_length_succ, Nat.add_mul, ih]
    cases n with
    | zero => rfl
    | succ m =>
      simp only [Nat.succ_sub_one]
      ring

/-! Properties of `npArgmax`: it is a stable argmax (first index attaining
the maximum). -/

theorem getD_eq_getElem_of_lt {α : Type} (l : List α) (d : α) {i : Nat}
    (h : i < l.length) : l.getD i d = l.get ⟨i, h⟩ := by
  rw [List.getD_eq_getElem?_getD, List.getElem?_eq_getElem h]
  rfl

theorem getD_eq_default_of_le {α : Type} (l : List α) (d : α) {i : Nat}
    (h : l.length ≤ i) : l.getD i d = d := by
  rw [List.getD_eq_getElem?_getD, List.getElem?_eq_none h]
  rfl

theorem npArgmax_getD {v : List Nat} : v.getD (npArgmax v) 0 = maxL v := by
  by_cases hv : v = []
  · subst hv; rfl
  · have hmem : maxL v ∈ v := maxL_mem hv
    have hlt : v.indexOf (maxL v) < v.length := List.indexOf_lt_length.2 hmem
    rw [npArgmax, getD_eq_getElem_of_lt v 0 hlt]
    exact List.indexOf_get hlt

theorem getD_le_npArgmax (v : List Nat) (i : Nat) :
    v.getD i 0 ≤ v.getD (npArgmax v) 0 := by
  rw [npArgmax_getD]
  by_cases hi : i < v.length
  · rw [getD_eq_getElem_of_lt v 0 hi]
    exact le_maxL (List.get_mem v i hi)
  · rw [getD_eq_default_of_le v 0 (Nat.le_of_not_lt hi)]
    exact Nat.zero_le _

theorem getD_ne_of_lt_indexOf {v : List Nat} {a : Nat} :
    ∀ i, i < v.indexOf a → v.getD i 0 ≠ a := by
  induction v with
  | nil => intro i h; simp [List.indexOf] at h
  | cons x xs ih =>
    intro i h
    rw [List.indexOf_cons] at h
    by_cases hx : x = a
    · rw [hx] at h
      simp at h
    · have hb : (x == a) = false := by simpa using hx
      rw [hb] at h
      simp only [cond_false] at h
      cases i with
      | zero => simpa using hx
      | succ i =>
        have := ih i (by omega)
        simpa using this

theorem getD_lt_of_lt_npArgmax (v : List Nat) (i : Nat) (h : i < npArgmax v) :
    v.getD i 0 < v.getD (npArgmax v) 0 := by
  have hle : npArgmax v ≤ v.length := List.indexOf_le_length
  have hi : i < v.length := Nat.lt_of_lt_of_le h hle
  have hne : v.getD i 0 ≠ maxL v := getD_ne_of_lt_indexOf i h
  have hmem : v.getD i 0 ≤ maxL v := by
    rw [getD_eq_getElem_of_lt v 0 hi]
    exact le_maxL (List.get_mem v i hi)
  rw [npArgmax_getD]
  omega

/-! Facts about the vote tally of `one_against_one_model.apply`. -/

theorem getD_replicate_zero (n k : Nat) : (List.replicate n (0 : Nat)).getD k 0 = 0 := by
  rw [List.getD_eq_getElem?_getD, List.getElem?_replicate]
  split <;> rfl

theorem votedIdx_lt {φ : Type} (m : one_against_one_model φ) (x : φ) {p : Nat × Nat}
    (hp : p ∈ uPairs m.nclasses) : m.votedIdx x p < m.nclasses := by
  rcases (mem_uPairs p m.nclasses).1 hp with ⟨h1, h2⟩
  unfold one_against_one_model.votedIdx
  by_cases hc : m.sub p.1 p.2 x = true
  · rw [if_pos hc]; omega
  · rw [if_neg hc]; omega

theorem votes_length {φ : Type} (m : one_against_one_model φ) (x : φ) :
    (m.votes x).length = m.nclasses := by
  unfold one_against_one_model.votes
  rw [foldl_bump_length (m.votedIdx x) (uPairs m.nclasses)]
  exact List.length_replicate _ _

theorem votes_getD {φ : Type} (m : one_against_one_model φ) (x : φ) (k : Nat) :
    (m.votes x).getD k 0
      = (uPairs m.nclasses).countP (fun p => m.votedIdx x p == k) := by
  unfold one_against_one_model.votes
  rw [foldl_bump_getD (m.votedIdx x) (uPairs m.nclasses) _ k (by
    intro p hp
    rw [List.length_replicate]
    exact votedIdx_lt m x hp)]
  rw [getD_replicate_zero, Nat.zero_add]

theorem votes_sum {φ : Type} (m : one_against_one_model φ) (x : φ) :
    (m.votes x).sum = (uPairs m.nclasses).length := by
  unfold one_against_one_model.votes
  rw [foldl_bump_sum (m.votedIdx x) (uPairs m.nclasses) _ (by
    intro p hp
    rw [List.length_replicate]
    exact votedIdx_lt m x hp)]
  simp

theorem countP_contains_uPairs_le (k : Nat) : ∀ n : Nat,
    (uPairs n).countP (fun p => p.1 == k || p.2 == k) ≤ n - 1 := by
  intro n
  induction n with
  | zero => rw [uPairs_zero]; exact Nat.le_refl 0
  | succ n ih =>
    rw [List.Perm.countP_eq _ (uPairs_succ_perm n), List.countP_append, List.countP_map]
    by_cases hk : k = n
    · subst hk
      have h0 : (uPairs k).countP (fun p => p.1 == k || p.2 == k) = 0 := by
        rw [List.countP_eq_zero]
        intro p hp
        rcases (mem_uPairs p k).1 hp with ⟨h1, h2⟩
        simp only [Bool.or_eq_true, beq_iff_eq]
        omega
      have h2 : List.countP ((fun p : Nat × Nat => p.1 == k || p.2 == k)
          ∘ (fun i => (i, k))) (List.range k) ≤ k := by
        calc List.countP _ (List.range k) ≤ (List.range k).length :=
              List.countP_le_length _
          _ = k := List.length_range k
      omega
    · have hnk : (n == k) = false := beq_eq_false_iff_ne.2 (Ne.symm hk)
      have h2 : List.countP ((fun p : Nat × Nat => p.1 == k || p.2 == k)
          ∘ (fun i => (i, n))) (List.range n)
          = List.countP (fun i => i == k) (List.range n) := by
        apply List.countP_congr
        intro i _
        simp only [Function.comp_apply, hnk, Bool.or_false]
      have h3 : List.countP (fun i => i == k) (List.range n) ≤ 1 := by
        rw [← List.count_eq_countP]
        exact List.nodup_iff_count_le_one.1 (List.nodup_range n) k
      rw [h2]
      by_cases hn : n = 0
      · subst hn
        simp [uPairs_zero]
      · omega

theorem votes_getD_le {φ : Type} (m : one_against_one_model φ) (x : φ) (k : Nat) :
    (m.votes x).getD k 0 ≤ m.nclasses - 1 := by
  rw [votes_getD]
  calc (uPairs m.nclasses).countP (fun p => m.votedIdx x p == k)
      ≤ (uPairs m.nclasses).countP (fun p => p.1 == k || p.2 == k) := by
        apply List.countP_mono_left
        intro p hp hpk
        unfold one_against_one_model.votedIdx at hpk
        by_cases hc : m.sub p.1 p.2 x = true
        · rw [if_pos hc] at hpk
          simp only [Bool.or_eq_true]
          exact Or.inl hpk
        · rw [if_neg hc] at hpk
          simp only [Bool.or_eq_true]
          exact Or.inr hpk
    _ ≤ m.nclasses - 1 := countP_contains_uPairs_le k m.nclasses

/-! Facts about the (spec-modelled) label normalization. -/

theorem namesOf_perm_dedup (ls : List Nat) : (namesOf ls).Perm ls.dedup :=
  List.perm_insertionSort _ _

theorem namesOf_nodup (ls : List Nat) : (namesOf ls).Nodup :=
  (namesOf_perm_dedup ls).symm.nodup (List.nodup_dedup ls)

theorem mem_namesOf {ls : List Nat} {a : Nat} : a ∈ namesOf ls ↔ a ∈ ls := by
  rw [(namesOf_perm_dedup ls).mem_iff, List.mem_dedup]

theorem namesOf_length (ls : List Nat) : (namesOf ls).length = ls.dedup.length :=
  (namesOf_perm_dedup ls).length_eq

theorem nlabelsOf_eq_map (ls : List Nat) :
    nlabelsOf ls = ls.map (fun l => (namesOf ls).indexOf l) := rfl

theorem mem_nlabelsOf_lt {ls : List Nat} {v : Nat} (h : v ∈ nlabelsOf ls) :
    v < (namesOf ls).length := by
  rw [nlabelsOf_eq_map] at h
  rcases List.mem_map.1 h with ⟨l, hl, hv⟩
  rw [← hv]
  exact List.indexOf_lt_length.2 (mem_namesOf.2 hl)

theorem class_inhabited {ls : List Nat} {i : Nat} (h : i < (namesOf ls).length) :
    i ∈ nlabelsOf ls := by
  have hmem : (namesOf ls).get ⟨i, h⟩ ∈ ls := mem_namesOf.1 (List.get_mem _ i h)
  rw [nlabelsOf_eq_map]
  exact List.mem_map.2 ⟨(namesOf ls).get ⟨i, h⟩, hmem,
    List.get_indexOf (namesOf_nodup ls) ⟨i, h⟩⟩

theorem nclassesOf_eq_names_length {ls : List Nat} (h : ls ≠ []) :
    nclassesOf ls = (namesOf ls).length := by
  have hpos : 0 < (namesOf ls).length := by
    cases ls with
    | nil => exact absurd rfl h
    | cons x xs =>
      exact List.length_pos_of_mem (mem_namesOf.2 (List.mem_cons_self x xs))
  have hub : maxL (nlabelsOf ls) ≤ (namesOf ls).length - 1 := by
    rcases foldl_max_mem_or (nlabelsOf ls) 0 with hm | hm
    · have := mem_nlabelsOf_lt hm
      unfold maxL
      omega
    · unfold maxL
      rw [hm]
      omega
  have hlb : (namesOf ls).length - 1 ≤ maxL (nlabelsOf ls) :=
    le_maxL (class_inhabited (by omega))
  unfold nclassesOf
  omega

theorem nclassesOf_nil : nclassesOf [] = 1 := rfl

theorem pair_subset_nonempty (ls : List Nat) {i j : Nat} (hij : i < j)
    (hj : j < nclassesOf ls) :
    (nlabelsOf ls).filter (fun l => l == i || l == j) ≠ [] := by
  by_cases hls : ls = []
  · subst hls
    rw [nclassesOf_nil] at hj
    omega
  · have hj' : j < (namesOf ls).length := by
      rw [← nclassesOf_eq_names_length hls]
      exact hj
    have hmem : j ∈ nlabelsOf ls := class_inhabited hj'
    intro hempty
    rw [List.eq_nil_iff_forall_not_mem] at hempty
    exact hempty j (List.mem_filter.2 ⟨hmem, by simp⟩)

theorem namesOf_of_dense {ls : List Nat} (h : ∀ l ∈ ls, l < ls.dedup.length) :
    namesOf ls = List.range ls.dedup.length := by
  have hsub : ls.dedup ⊆ List.range ls.dedup.length := fun a ha =>
    List.mem_range.2 (h a (List.mem_dedup.1 ha))
  have hperm : ls.dedup.Perm (List.range ls.dedup.length) :=
    ((List.nodup_dedup ls).subperm hsub).perm_of_length_le (by
      rw [List.length_range])
  exact List.eq_of_perm_of_sorted ((List.perm_insertionSort _ _).trans hperm)
    (List.sorted_insertionSort _ _) ((List.sorted_lt_range _).imp le_of_lt)

theorem indexOf_range {k l : Nat} (h : l < k) : (List.range k).indexOf l = l := by
  have hl : l < (List.range k).length := by
    rw [List.length_range]
    exact h
  have hg : (List.range k).get ⟨l, hl⟩ = l := by
    rw [List.get_eq_getElem]
    exact List.getElem_range l hl
  have hidx := List.get_indexOf (List.nodup_range k) ⟨l, hl⟩
  rw [hg] at hidx
  exact hidx

theorem nlabelsOf_of_dense {ls : List Nat} (h : ∀ l ∈ ls, l < ls.dedup.length) :
    nlabelsOf ls = ls := by
  rw [nlabelsOf_eq_map, namesOf_of_dense h]
  have hpt : ∀ l ∈ ls, (List.range ls.dedup.length).indexOf l = id l := fun l hl =>
    indexOf_range (h l hl)
  rw [List.map_congr_left hpt, List.map_id]

/-! Success and shape of `one_against_one.train`. -/

/-- The value stored at table position `(i,j)` by a successful
`one_against_one.train` run: the trained pair sub-model below the
diagonal, `None` elsewhere. -/
def one_against_one_cellPure {φ : Type} (base : List φ → List Nat → (φ → Bool))
    (features : List φ) (nlabels : List Nat) (i j : Nat) : Option (φ → Bool) :=
  if i < j then
    some (base (pairFeatures features nlabels i j) (pairIndicator nlabels i j))
  else none

/-- The full table built by a successful `one_against_one.train` run. -/
def one_against_one_tableOf {φ : Type} (base : List φ → List Nat → (φ → Bool))
    (features : List φ) (labels : List Nat) : List (List (Option (φ → Bool))) :=
  (List.range (nclassesOf labels)).map (fun i =>
    (List.range (nclassesOf labels)).map (fun j =>
      one_against_one_cellPure base features (nlabelsOf labels) i j))

theorem mapM_ok_of_forall_ok {ε α β : Type} (f : α → Except ε β) (g : α → β)
    (l : List α) (h : ∀ a ∈ l, f a = Except.ok (g a)) :
    l.mapM f = Except.ok (l.map g) := by
  induction l with
  | nil => rfl
  | cons a l ih =>
    rw [List.mapM_cons, h a (List.mem_cons_self a l),
      ih (fun b hb => h b (List.mem_cons_of_mem a hb))]
    rfl

theorem one_against_one_train_ok {φ : Type} (base : List φ → List Nat → (φ → Bool))
    (features : List φ) (labels : List Nat) :
    one_against_one_train base features labels = Except.ok
      { models := one_against_one_tableOf base features labels,
        names := namesOf labels } := by
  have houter : (List.range (maxL (normaliselabels labels).1 + 1)).mapM (fun i =>
      (List.range (maxL (normaliselabels labels).1 + 1)).mapM (fun j =>
        one_against_one_cell base features (normaliselabels labels).1 i j))
      = Except.ok ((List.range (maxL (normaliselabels labels).1 + 1)).map (fun i =>
          (List.range (maxL (normaliselabels labels).1 + 1)).map (fun j =>
            one_against_one_cellPure base features (normaliselabels labels).1 i j))) := by
    apply mapM_ok_of_forall_ok
    intro i hi
    apply mapM_ok_of_forall_ok
    intro j hj
    unfold one_against_one_cell one_against_one_cellPure
    by_cases hij : i < j
    · rw [if_pos hij, if_pos hij]
      have hne := pair_subset_nonempty labels hij (List.mem_range.1 hj)
      rw [if_neg (by
        intro hzero
        exact hne (List.length_eq_zero.1 hzero))]
    · rw [if_neg hij, if_neg hij]
  simp only [one_against_one_train]
  rw [houter]
  rfl

theorem getD_map_range {α : Type} (f : Nat → α) (d : α) {i n : Nat} (h : i < n) :
    ((List.range n).map f).getD i d = f i := by
  rw [List.getD_eq_getElem?_getD, List.getElem?_map, List.getElem?_range h]
  rfl

theorem tableOf_entry {φ : Type} (base : List φ → List Nat → (φ → Bool))
    (features : List φ) (labels : List Nat) {i j : Nat}
    (hi : i < nclassesOf labels) (hj : j < nclassesOf labels) :
    ((one_against_one_tableOf base features labels).getD i []).getD j none
      = one_against_one_cellPure base features (nlabelsOf labels) i j := by
  unfold one_against_one_tableOf
  rw [getD_map_range _ _ hi, getD_map_range _ _ hj]

/-- The number of trained sub-models stored in a pairwise table. -/
def countSubModels {φ : Type} (t : List (List (Option (φ → Bool)))) : Nat :=
  (t.map (fun row => row.countP (fun o => o.isSome))).sum

theorem countP_lt_range (i : Nat) : ∀ n : Nat,
    (List.range n).countP (fun j => decide (i < j)) = n - (i+1) := by
  intro n
  induction n with
  | zero => simp
  | succ n ih =>
    rw [List.range_succ, List.countP_append, ih, List.countP_cons, List.countP_nil]
    by_cases hin : i < n
    · rw [if_pos (by simpa using hin)]
      omega
    · rw [if_neg (by simpa using hin)]
      omega

theorem uPairs_length_eq_sum (n : Nat) :
    (uPairs n).length = ((List.range n).map (fun i => n - (i+1))).sum := by
  unfold uPairs
  rw [List.length_flatten, List.map_map]
  congr 1
  apply List.map_congr_left
  intro i hi
  show (((List.range n).drop (i+1)).map (fun j => (i, j))).length = n - (i+1)
  rw [List.length_map, List.length_drop, List.length_range]

theorem countSubModels_tableOf {φ : Type} (base : List φ → List Nat → (φ → Bool))
    (features : List φ) (labels : List Nat) :
    countSubModels (one_against_one_tableOf base features labels)
      = (uPairs (nclassesOf labels)).length := by
  unfold countSubModels one_against_one_tableOf
  rw [uPairs_length_eq_sum, List.map_map]
  congr 1
  apply List.map_congr_left
  intro i hi
  show (((List.range (nclassesOf labels)).map (fun j =>
      one_against_one_cellPure base features (nlabelsOf labels) i j)).countP
        (fun o => o.isSome)) = nclassesOf labels - (i+1)
  rw [List.countP_map]
  have hpt : ((fun o : Option (φ → Bool) => o.isSome)
      ∘ (fun j => one_against_one_cellPure base features (nlabelsOf labels) i j))
      = fun j => decide (i < j) := by
    funext j
    unfold one_against_one_cellPure
    by_cases hij : i < j
    · simp [hij]
    · simp [hij]
  rw [hpt, countP_lt_range]

/-! The head of a filtered range is the least index satisfying the
predicate (used for `np.where` in `one_against_rest_model.apply`). -/

theorem filter_range_nil {n : Nat} {p : Nat → Bool}
    (h : (List.range n).filter p = []) : ∀ j < n, ¬ p j = true := by
  intro j hj hp
  rw [List.eq_nil_iff_forall_not_mem] at h
  exact h j (List.mem_filter.2 ⟨List.mem_range.2 hj, hp⟩)

theorem filter_range_cons {n : Nat} {p : Nat → Bool} {i : Nat} {rest : List Nat}
    (h : (List.range n).filter p = i :: rest) :
    i < n ∧ p i = true ∧ ∀ j < i, ¬ p j = true := by
  have hmem : i ∈ (List.range n).filter p := by
    rw [h]
    exact List.mem_cons_self i rest
  rcases List.mem_filter.1 hmem with ⟨hin, hpi⟩
  refine ⟨List.mem_range.1 hin, hpi, ?_⟩
  intro j hj hpj
  have hsorted : List.Pairwise (· < ·) ((List.range n).filter p) :=
    List.Pairwise.filter p (List.sorted_lt_range n)
  have hjmem : j ∈ (List.range n).filter p :=
    List.mem_filter.2 ⟨List.mem_range.2 (by
      have := List.mem_range.1 hin
      omega), hpj⟩
  rw [h] at hjmem hsorted
  rcases List.mem_cons.1 hjmem with hji | hjr
  · omega
  · rcases List.pairwise_cons.1 hsorted with ⟨hall, _⟩
    have := hall j hjr
    omega

/-! Characterization of `one_against_rest` training and application. -/

theorem one_against_rest_train_models_length {φ : Type}
    (base : List φ → List Nat → (φ → Bool)) (features : List φ)
    (labels : List Nat) (nl : Bool) :
    (one_against_rest_train base features labels nl).models.length
      = nclassesOf labels := by
  simp only [one_against_rest_train]
  rw [List.length_map, List.length_range]
  rfl

theorem one_against_rest_train_names {φ : Type}
    (base : List φ → List Nat → (φ → Bool)) (features : List φ)
    (labels : List Nat) (nl : Bool) :
    (one_against_rest_train base features labels nl).names = namesOf labels := rfl

theorem applyF_eq_head {φ : Type} (m : one_against_rest_model φ) (x : φ) :
    m.applyF x = m.names.get? (match m.firingIdxs x with
      | [] => 0
      | i :: _ => i) := by
  unfold one_against_rest_model.applyF
  cases h : m.firingIdxs x with
  | nil => rfl
  | cons i rest =>
    dsimp only
    by_cases h1 : (i :: rest).length = 1
    · rw [if_pos h1]
      rfl
    · rw [if_neg h1, if_neg (by simp)]
      rfl

theorem firing_pred_eq {φ : Type} (m : one_against_rest_model φ) (x : φ) {i : Nat}
    (h : i < m.models.length) :
    (m.models.map (fun c => c x)).getD i false
      = (m.models.getD i (fun _ => false)) x := by
  rw [List.getD_eq_getElem?_getD, List.getElem?_map, List.getElem?_eq_getElem h,
    List.getD_eq_getElem?_getD, List.getElem?_eq_getElem h]
  rfl

theorem mem_firingIdxs {φ : Type} (m : one_against_rest_model φ) (x : φ) (i : Nat) :
    i ∈ m.firingIdxs x
      ↔ (i < m.models.length ∧ (m.models.getD i (fun _ => false)) x = true) := by
  simp only [one_against_rest_model.firingIdxs]
  rw [List.mem_filter, List.mem_range, List.length_map]
  constructor
  · rintro ⟨h1, h2⟩
    refine ⟨h1, ?_⟩
    rw [← firing_pred_eq m x h1]
    exact h2
  · rintro ⟨h1, h2⟩
    refine ⟨h1, ?_⟩
    rw [firing_pred_eq m x h1]
    exact h2

theorem firingIdxs_sorted {φ : Type} (m : one_against_rest_model φ) (x : φ) :
    List.Pairwise (· < ·) (m.firingIdxs x) :=
  List.Pairwise.filter _ (List.sorted_lt_range _)

/-! Key-set of the multi-label model. -/

theorem multi_train_keys {φ : Type} (base : List φ → List Bool → (φ → Bool))
    (features : List φ) (labels : List (List Nat)) (nl : Bool) :
    (one_against_rest_multi_train base features labels nl).models.map Prod.fst
      = labels.flatten.dedup := by
  simp only [one_against_rest_multi_train]
  rw [List.map_map]
  have hid : (Prod.fst ∘ (fun lab =>
      (lab, base features (labels.map (fun ls => ls.contains lab))))) = id := by
    funext lab
    rfl
  rw [hid, List.map_id]

theorem getD_map_of_lt {α β : Type} (f : α → β) (l : List α) {k : Nat}
    (h : k < l.length) (d : α) (d' : β) :
    (l.map f).getD k d' = f (l.getD k d) := by
  rw [List.getD_eq_getElem?_getD, List.getElem?_map, List.getElem?_eq_getElem h,
    List.getD_eq_getElem?_getD, List.getElem?_eq_getElem h]
  rfl

/-! ## The claims -/

/-- C1: for every trained `one_against_one` model with `nclasses` classes and
every feature input, `apply` tallies one vote per unordered pair `(i,j)` with
`i < j` — a vote for `i` when the `(i,j)` sub-model's output is truthy, else a
vote for `j` — and returns the name-table entry at the index with the maximum
tally, ties broken in favour of the lowest index.  Conjuncts: (1) `uPairs`
enumerates exactly the unordered pairs below `nclasses`; (2) class `k`'s tally
counts exactly the pairs that vote for `k`; (3) `apply` returns the name-table
entry at `npArgmax votes`; (4) that index attains the maximum tally; (5) every
lower index has a strictly smaller tally. -/
theorem C1_one_against_one_apply {φ : Type} (m : one_against_one_model φ) (x : φ) :
    (∀ p : Nat × Nat, p ∈ uPairs m.nclasses ↔ p.1 < p.2 ∧ p.2 < m.nclasses)
    ∧ (∀ k : Nat, (m.votes x).getD k 0
        = ((uPairs m.nclasses).filter
            (fun p => if m.sub p.1 p.2 x then p.1 == k else p.2 == k)).length)
    ∧ m.applyF x = m.names.get? (npArgmax (m.votes x))
    ∧ (∀ i : Nat, (m.votes x).getD i 0 ≤ (m.votes x).getD (npArgmax (m.votes x)) 0)
    ∧ (∀ i : Nat, i < npArgmax (m.votes x) →
        (m.votes x).getD i 0 < (m.votes x).getD (npArgmax (m.votes x)) 0) := by
  refine ⟨fun p => mem_uPairs p m.nclasses, ?_, rfl,
    fun i => getD_le_npArgmax _ i, fun i hi => getD_lt_of_lt_npArgmax _ i hi⟩
  intro k
  rw [votes_getD, List.countP_eq_length_filter]
  congr 1
  apply List.filter_congr
  intro p hp
  unfold one_against_one_model.votedIdx
  by_cases hc : m.sub p.1 p.2 x = true
  · rw [if_pos hc, if_pos hc]
  · rw [if_neg hc, if_neg hc]

/-- A concrete 3-class one-against-one model used to witness C1:
votes come out `[0, 2, 1]`, so the argmax is the non-trivial index 1. -/
def cM : one_against_one_model Unit :=
  { models := [[none, some (fun _ => false), some (fun _ => false)],
               [none, none, some (fun _ => true)],
               [none, none, none]],
    names := [10, 20, 30] }

theorem C1_witness :
    0 < npArgmax (cM.votes ())
    ∧ (cM.votes ()).getD 0 0 < (cM.votes ()).getD (npArgmax (cM.votes ())) 0 :=
  ⟨by decide, (C1_one_against_one_apply cM ()).2.2.2.2 0 (by decide)⟩

/-- C2: for every trained `one_against_rest` model and every feature input,
`apply` evaluates all `nclasses` sub-models and returns the name-table entry
at: the unique firing index when exactly one sub-model fires; index 0 when no
sub-model fires; the lowest firing index when more than one fires. -/
theorem C2_one_against_rest_apply {φ : Type} (m : one_against_rest_model φ) (x : φ) :
    (∀ i : Nat, i ∈ m.firingIdxs x
        ↔ (i < m.nclasses ∧ (m.models.getD i (fun _ => false)) x = true))
    ∧ ((m.firingIdxs x).length = 0 → m.applyF x = m.names.get? 0)
    ∧ (∀ i : Nat, (m.firingIdxs x).length = 1 → i ∈ m.firingIdxs x →
        m.applyF x = m.names.get? i)
    ∧ (∀ i : Nat, 1 < (m.firingIdxs x).length → i ∈ m.firingIdxs x →
        (∀ j ∈ m.firingIdxs x, i ≤ j) → m.applyF x = m.names.get? i) := by
  refine ⟨fun i => mem_firingIdxs m x i, ?_, ?_, ?_⟩
  · intro h0
    rw [applyF_eq_head]
    rw [List.length_eq_zero.1 h0]
  · intro i h1 hm
    cases he : m.firingIdxs x with
    | nil =>
      rw [he] at hm
      cases hm
    | cons a rest =>
      rw [he] at h1 hm
      have hrest : rest = [] := by
        rw [List.length_cons] at h1
        exact List.length_eq_zero.1 (by omega)
      subst hrest
      rcases List.mem_cons.1 hm with hia | hir
      · subst hia
        rw [applyF_eq_head, he]
      · cases hir
  · intro i h1 hm hle
    cases he : m.firingIdxs x with
    | nil =>
      rw [he] at hm
      cases hm
    | cons a rest =>
      have hsorted := firingIdxs_sorted m x
      rw [he] at hm hsorted
      have hia : i = a := by
        have hle_a : i ≤ a := hle a (by rw [he]; exact List.mem_cons_self a rest)
        rcases List.mem_cons.1 hm with hia | hir
        · exact hia
        · rcases List.pairwise_cons.1 hsorted with ⟨hall, _⟩
          have := hall i hir
          omega
      subst hia
      rw [applyF_eq_head, he]

/-- A concrete 3-class one-against-rest model used to witness C2: sub-models
1 and 2 fire, so `apply` must return the name at the lower index 1. -/
def cR : one_against_rest_model Unit :=
  { models := [fun _ => false, fun _ => true, fun _ => true],
    names := [10, 20, 30] }

theorem C2_witness : cR.applyF () = cR.names.get? 1 :=
  (C2_one_against_rest_apply cR ()).2.2.2 1 (by decide) (by decide) (by decide)

/-- C9: `one_against_one_model.apply` is deterministic and side-effect-free:
as a state transformer on the model object it leaves the receiver unchanged,
and a second call on the post-state returns the same label and again leaves
the model unchanged. -/
theorem C9_one_against_one_apply_pure {φ : Type}
    (m : one_against_one_model φ) (x : φ) :
    (m.applyState x).2 = m
    ∧ ((m.applyState x).2.applyState x).1 = (m.applyState x).1
    ∧ ((m.applyState x).2.applyState x).2 = m :=
  ⟨rfl, rfl, rfl⟩

/-- C10: a single `one_against_one_model.apply` call casts exactly
`n*(n-1)/2` votes in total — the sum of the tally vector equals
`n*(n-1)/2` — and no class receives more than `n-1` votes. -/
theorem C10_one_against_one_vote_budget {φ : Type}
    (m : one_against_one_model φ) (x : φ) :
    (m.votes x).sum = m.nclasses * (m.nclasses - 1) / 2
    ∧ ∀ k : Nat, (m.votes x).getD k 0 ≤ m.nclasses - 1 := by
  refine ⟨?_, votes_getD_le m x⟩
  rw [votes_sum]
  have h2 := uPairs_length_mul_two m.nclasses
  omega

/-- C3: `one_against_one.train` raises the empty-pair error exactly when some
class pair `(i,j)` with `i < j < nclasses` has zero training instances
labelled `i` or `j`; when every pair has an instance, no error is raised and a
full model is returned.  (With the spec-modelled dense normalization both
sides are in fact never satisfied: every normalized class index is inhabited,
so the `assert` cannot fire.) -/
theorem C3_one_against_one_empty_pair {φ : Type}
    (base : List φ → List Nat → (φ → Bool)) (features : List φ)
    (labels : List Nat) :
    (∃ i j : Nat, i < j ∧ j < nclassesOf labels
        ∧ (nlabelsOf labels).filter (fun l => l == i || l == j) = [])
      ↔ ∃ e, one_against_one_train base features labels = Except.error e := by
  constructor
  · rintro ⟨i, j, hij, hj, hempty⟩
    exact absurd hempty (pair_subset_nonempty labels hij hj)
  · rintro ⟨e, he⟩
    rw [one_against_one_train_ok] at he
    cases he

/-- C4: for every label sequence with exactly `k ≥ 1` distinct values,
`one_against_rest.train` produces exactly `k` sub-models and
`one_against_one.train` succeeds with a `k × k` triangular table holding
exactly `k*(k-1)/2` trained sub-models. -/
theorem C4_submodel_counts {φ : Type}
    (baseR baseO : List φ → List Nat → (φ → Bool)) (features : List φ)
    (labels : List Nat) (nl : Bool) (k : Nat)
    (hk : labels.dedup.length = k) (hpos : 1 ≤ k) :
    (one_against_rest_train baseR features labels nl).models.length = k
    ∧ ∃ m, one_against_one_train baseO features labels = Except.ok m
        ∧ m.nclasses = k
        ∧ countSubModels m.models = k * (k - 1) / 2 := by
  have hne : labels ≠ [] := by
    intro h
    subst h
    simp at hk
    omega
  have hcls : nclassesOf labels = k := by
    rw [nclassesOf_eq_names_length hne, namesOf_length, hk]
  refine ⟨?_, ⟨one_against_one_model.mk (one_against_one_tableOf baseO features labels)
      (namesOf labels), one_against_one_train_ok baseO features labels, ?_, ?_⟩⟩
  · rw [one_against_rest_train_models_length, hcls]
  · show (one_against_one_tableOf baseO features labels).length = k
    unfold one_against_one_tableOf
    rw [List.length_map, List.length_range, hcls]
  · show countSubModels (one_against_one_tableOf baseO features labels) = k * (k - 1) / 2
    rw [countSubModels_tableOf, hcls]
    have h2 := uPairs_length_mul_two k
    omega

theorem C4_witness :
    ([5, 5, 9, 7] : List Nat).dedup.length = 3 ∧ 1 ≤ 3
    ∧ ((one_against_rest_train (fun _ _ => fun (_ : Unit) => true)
          [(), (), (), ()] [5, 5, 9, 7] false).models.length = 3
      ∧ ∃ m, one_against_one_train (fun _ _ => fun (_ : Unit) => true)
            [(), (), (), ()] [5, 5, 9, 7] = Except.ok m
          ∧ m.nclasses = 3
          ∧ countSubModels m.models = 3 * (3 - 1) / 2) :=
  ⟨by decide, by decide,
    C4_submodel_counts (fun _ _ => fun (_ : Unit) => true)
      (fun _ _ => fun (_ : Unit) => true) [(), (), (), ()] [5, 5, 9, 7] false 3
      (by decide) (by decide)⟩

/-- C5: for every class pair `(i,j)` with `i < j < nclasses`,
`one_against_one.train` succeeds and stores at table position `(i,j)` the
base classifier trained on exactly the instances whose (normalized) label is
`i` or `j`, against the 0/1 indicator which is 1 exactly at the positions of
that subset whose label is `i`. -/
theorem C5_pair_submodel {φ : Type} (base : List φ → List Nat → (φ → Bool))
    (features : List φ) (labels : List Nat) (i j : Nat)
    (hij : i < j) (hj : j < nclassesOf labels) :
    ∃ m, one_against_one_train base features labels = Except.ok m
      ∧ (m.models.getD i []).getD j none
          = some (base
              (((features.zip (nlabelsOf labels)).filter
                  (fun q => q.2 == i || q.2 == j)).map Prod.fst)
              (((nlabelsOf labels).filter (fun l => l == i || l == j)).map
                  (fun l => if l == i then 1 else 0)))
      ∧ (∀ k : Nat,
          k < ((nlabelsOf labels).filter (fun l => l == i || l == j)).length →
          ((((nlabelsOf labels).filter (fun l => l == i || l == j)).map
              (fun l => if l == i then 1 else 0)).getD k 0 = 1
            ↔ ((nlabelsOf labels).filter
                (fun l => l == i || l == j)).getD k (j+1) = i)) := by
  refine ⟨one_against_one_model.mk (one_against_one_tableOf base features labels)
      (namesOf labels), one_against_one_train_ok base features labels, ?_, ?_⟩
  · show ((one_against_one_tableOf base features labels).getD i []).getD j none = _
    rw [tableOf_entry base features labels (Nat.lt_trans hij hj) hj]
    unfold one_against_one_cellPure
    rw [if_pos hij]
    rfl
  · intro k hk
    rw [getD_map_of_lt _ _ hk (j+1) 0]
    by_cases hki : ((nlabelsOf labels).filter
        (fun l => l == i || l == j)).getD k (j+1) = i
    · rw [if_pos (by simpa using hki)]
      exact ⟨fun _ => hki, fun _ => rfl⟩
    · rw [if_neg (by simpa using hki)]
      exact ⟨fun h0 => absurd h0 (by omega), fun hgi => absurd hgi hki⟩

theorem C5_witness :
    0 < 1 ∧ 1 < nclassesOf [0, 1, 2]
    ∧ ∃ m, one_against_one_train (fun _ _ => fun (_ : Unit) => true)
          [(), (), ()] [0, 1, 2] = Except.ok m
        ∧ (m.models.getD 0 []).getD 1 none
            = some ((fun _ _ => fun (_ : Unit) => true)
                ((([(), (), ()].zip (nlabelsOf [0, 1, 2])).filter
                    (fun q => q.2 == 0 || q.2 == 1)).map Prod.fst)
                (((nlabelsOf [0, 1, 2]).filter (fun l => l == 0 || l == 1)).map
                    (fun l => if l == 0 then 1 else 0)))
        ∧ (∀ k : Nat,
            k < ((nlabelsOf [0, 1, 2]).filter (fun l => l == 0 || l == 1)).length →
            ((((nlabelsOf [0, 1, 2]).filter (fun l => l == 0 || l == 1)).map
                (fun l => if l == 0 then 1 else 0)).getD k 0 = 1
              ↔ ((nlabelsOf [0, 1, 2]).filter
                  (fun l => l == 0 || l == 1)).getD k 2 = 0)) :=
  ⟨by decide, by decide,
    C5_pair_submodel (fun _ _ => fun (_ : Unit) => true) [(), (), ()]
      [0, 1, 2] 0 1 (by decide) (by decide)⟩

/-- C6 (counterexample to the claim as stated): calling
`one_against_rest.train` with `normalisedlabels` set to true does NOT make
the class indices used for training equal to the supplied labels — the body
ignores the flag and re-normalizes unconditionally.  With supplied labels
`[5, 7]` the class indices actually used are `[0, 1] ≠ [5, 7]`, and the model
gets `2` sub-models (classes `0` and `1`), not sub-models for classes `5` and
`7`. -/
theorem C6_counterexample :
    nlabelsOf [5, 7] ≠ [5, 7]
    ∧ (one_against_rest_train (fun _ _ => fun (_ : Unit) => true)
        [(), ()] [5, 7] true).models.length = 2 := by
  constructor
  · decide
  · rfl

/-- C6 (amended): `one_against_rest.train` ignores the `normalisedlabels`
flag — training with the flag set is identical to training without it — and
normalization is the identity on already-normalized labels (dense values
`0..k-1`), so precisely when the caller's assertion behind the flag holds,
the class indices used for training are exactly the labels supplied. -/
theorem C6_normalisedlabels_passthrough {φ : Type}
    (base : List φ → List Nat → (φ → Bool)) (features : List φ)
    (labels : List Nat) (h : ∀ l ∈ labels, l < labels.dedup.length) :
    one_against_rest_train base features labels true
      = one_against_rest_train base features labels false
    ∧ nlabelsOf labels = labels :=
  ⟨rfl, nlabelsOf_of_dense h⟩

theorem C6_witness :
    (∀ l ∈ ([1, 0, 2] : List Nat), l < ([1, 0, 2] : List Nat).dedup.length)
    ∧ (one_against_rest_train (fun _ _ => fun (_ : Unit) => true)
          [(), (), ()] [1, 0, 2] true
        = one_against_rest_train (fun _ _ => fun (_ : Unit) => true)
          [(), (), ()] [1, 0, 2] false
      ∧ nlabelsOf [1, 0, 2] = [1, 0, 2]) :=
  ⟨by decide,
    C6_normalisedlabels_passthrough (fun _ _ => fun (_ : Unit) => true)
      [(), (), ()] [1, 0, 2] (by decide)⟩

/-- C7: for every trained `one_against_rest_multi` model and every feature
input, `apply` returns exactly the set of label keys whose sub-model output
is truthy: membership in the result is equivalent to having a firing
sub-model, and when the dictionary keys are distinct the result has no
duplicates (it is a set of labels, not a ranking). -/
theorem C7_multi_apply_set {φ : Type} (m : one_against_rest_multi_model φ)
    (x : φ) :
    (∀ lab : Nat, lab ∈ m.applyF x ↔ ∃ p ∈ m.models, p.1 = lab ∧ p.2 x = true)
    ∧ ((m.models.map Prod.fst).Nodup → (m.applyF x).Nodup) := by
  constructor
  · intro lab
    unfold one_against_rest_multi_model.applyF
    rw [List.mem_map]
    constructor
    · rintro ⟨p, hp, hlab⟩
      rcases List.mem_filter.1 hp with ⟨hpm, hfire⟩
      exact ⟨p, hpm, hlab, hfire⟩
    · rintro ⟨p, hpm, hlab, hfire⟩
      exact ⟨p, List.mem_filter.2 ⟨hpm, hfire⟩, hlab⟩
  · intro hnd
    unfold one_against_rest_multi_model.applyF
    exact List.Nodup.sublist
      (List.Sublist.map Prod.fst (List.filter_sublist m.models)) hnd

/-- A concrete multi-label model used to witness C7: keys 3, 5, 8 with the
sub-models for 3 and 8 firing. -/
def cMM : one_against_rest_multi_model Unit :=
  { models := [(3, fun _ => true), (5, fun _ => false), (8, fun _ => true)] }

theorem C7_witness :
    (3 ∈ cMM.applyF () ↔ ∃ p ∈ cMM.models, p.1 = 3 ∧ p.2 () = true)
    ∧ (cMM.applyF ()).Nodup :=
  ⟨(C7_multi_apply_set cMM ()).1 3, (C7_multi_apply_set cMM ()).2 (by decide)⟩

/-- C8: the label universe of a trained `one_against_rest_multi` model (the
keys of its sub-model mapping) is exactly the union of all label-sets across
the training instances, and every label returned by `apply` belongs to that
universe — a label absent from training never appears in a prediction. -/
theorem C8_multi_label_universe {φ : Type}
    (base : List φ → List Bool → (φ → Bool)) (features : List φ)
    (labels : List (List Nat)) (nl : Bool) :
    (∀ lab : Nat,
        lab ∈ (one_against_rest_multi_train base features labels nl).models.map
          Prod.fst
          ↔ ∃ ls ∈ labels, lab ∈ ls)
    ∧ (∀ (x : φ) (lab : Nat),
        lab ∈ (one_against_rest_multi_train base features labels nl).applyF x →
          lab ∈ (one_against_rest_multi_train base features labels nl).models.map
            Prod.fst) := by
  constructor
  · intro lab
    rw [multi_train_keys, List.mem_dedup, List.mem_flatten]
  · intro x lab h
    unfold one_against_rest_multi_model.applyF at h
    rcases List.mem_map.1 h with ⟨p, hp, hlab⟩
    exact List.mem_map.2 ⟨p, (List.mem_filter.1 hp).1, hlab⟩

theorem C8_witness :
    3 ∈ (one_against_rest_multi_train (fun _ _ => fun (_ : Unit) => true)
        [()] [[3], [5]] false).models.map Prod.fst :=
  (C8_multi_label_universe (fun _ _ => fun (_ : Unit) => true)
    [()] [[3], [5]] false).2 () 3 (by decide)

